import Mathlib

/-!
Verification of the color-sampling and color-reduction pipeline of
`src/pixelart.py` against its design description.

The Python source is embedded shallowly:

* a `Color` is a triple of Python integers (channels come from
  `image.getdata()` as exact `int`s);
* `get_average_color` (lines 6-60) becomes an `Option`-valued function,
  `none` modelling the `IndexError` that the line `pixels[0]` would raise
  on an empty region;
* the floating-point literals `0.866` (line 98/108/110) and the blend of
  lines 55-58 are modelled two ways: an exact-rational reading, and an
  exact model `fl64` of IEEE binary64 round-to-nearest-even for the
  magnitudes that actually occur (all well inside the normal range);
* `sample_colors` (lines 80-119) becomes an `Except`-valued function,
  `PyErr.zeroDivision` modelling the `ZeroDivisionError` of the two
  divisions `width // input_pixel_size` and `height // int(... * 0.866)`;
* `reduce_colors` (lines 121-158) is embedded with the external
  `sklearn.cluster.KMeans` call abstracted as a `KMeansModel`: a family of
  `k` rational cluster centres (`cluster_centers_`) together with an
  assignment of every color to a cluster (`predict`).
-/

namespace Pixelart

/-- An RGB color: a triple of (exact) integer channel values, as produced by
`image.getdata()` on an RGB image. -/
abbrev Color : Type := ℤ × ℤ × ℤ

/-- One channel of the membership test of line 30:
`abs(p - g) <= color_threshold`. -/
def chanClose (t : ℕ) (p g : ℤ) : Bool := decide ((p - g).natAbs ≤ t)

/-- Line 30: `all(abs(p - g) <= color_threshold for p, g in zip(pixel, group[0]))`,
the comparison of a pixel against a group's first-inserted member. -/
def closeTo (t : ℕ) (p a : Color) : Bool :=
  chanClose t p.1 a.1 && chanClose t p.2.1 a.2.1 && chanClose t p.2.2 a.2.2

/-- Membership test of a pixel against one group: compare with `group[0]`.
Groups are never empty in the source; an empty group rejects everything. -/
def matchesGroup (t : ℕ) (p : Color) : List Color → Bool
  | [] => false
  | a :: _ => closeTo t p a

/-- Body of the loop of lines 26-35 for one pixel: append the pixel to the
first group whose first member matches (`break` after the first hit), and
otherwise append a fresh singleton group at the end of `color_groups`. -/
def addPixel (t : ℕ) (p : Color) : List (List Color) → List (List Color)
  | [] => [[p]]
  | g :: gs => if matchesGroup t p g then (g ++ [p]) :: gs else g :: addPixel t p gs

/-- Lines 25-35: the greedy single-pass grouping of the filtered pixels,
in region-scan order. -/
def buildGroups (t : ℕ) (ps : List Color) : List (List Color) :=
  ps.foldl (fun gs p => addPixel t p gs) []

/-- Line 38: `max(color_groups, key=len)`.  Python's `max` keeps the current
best unless a strictly larger element appears, so the first maximum wins. -/
def pickLargest : List (List Color) → Option (List Color)
  | [] => none
  | g :: gs => some (gs.foldl (fun best h => if best.length < h.length then h else best) g)

/-- Lines 41-48: the per-channel sums over the largest group. -/
def sumColors (g : List Color) : ℤ × ℤ × ℤ :=
  g.foldl (fun acc p => (acc.1 + p.1, acc.2.1 + p.2.1, acc.2.2 + p.2.2)) (0, 0, 0)

/-- Line 49: `avg_color`, the per-channel floor division (Python `//`) of the
channel sums by the size of the group. -/
def avgColor (g : List Color) : Color :=
  ((sumColors g).1.fdiv g.length, (sumColors g).2.1.fdiv g.length,
   (sumColors g).2.2.fdiv g.length)

/-- Python `int(...)` on a rational value: truncation toward zero. -/
def pytrunc (q : ℚ) : ℤ :=
  if q < 0 then -((-q).num.fdiv ((-q).den : ℤ)) else q.num.fdiv (q.den : ℤ)

/-- One channel of lines 55-58, `int(avg * (1 - dominant_coefficient) +
dom * dominant_coefficient)` with `dom = avg` (line 52), read with the
coefficient as an exact rational. -/
def mixChannel (dc : ℚ) (a : ℤ) : ℤ :=
  pytrunc ((a : ℚ) * (1 - dc) + (a : ℚ) * dc)

/-- Lines 55-58: the blend applied to every channel of `avg_color`. -/
def mixColor (dc : ℚ) (c : Color) : Color :=
  (mixChannel dc c.1, mixChannel dc c.2.1, mixChannel dc c.2.2)

/-- Lines 6-60, `get_average_color`, on the row-major pixel list of a region.
`none` models the `IndexError` of `pixels[0]` on an empty region (and the
unreachable `max` over an empty group list). -/
def get_average_color (pixels : List Color) (dc : ℚ) (t : ℕ) : Option Color :=
  match pixels with
  | [] => none
  | bg :: _ =>
    let filtered := pixels.filter (fun p => decide (p ≠ bg))
    if filtered = [] then some bg
    else
      match pickLargest (buildGroups t filtered) with
      | none => none
      | some lg => some (mixColor dc (avgColor lg))


/-- A dyadic rational `m * 2 ^ e`: the value set of IEEE binary64 arithmetic
in the normal range (overflow and subnormals never occur at the magnitudes
the embedded program produces). -/
structure Dy where
  m : ℤ
  e : ℤ
deriving DecidableEq

/-- Number of binary digits of a natural number, by fuel (400 bits covers
every intermediate significand that occurs). -/
def nbits : ℕ → ℕ → ℕ
  | 0, _ => 0
  | fuel + 1, n => if n = 0 then 0 else nbits fuel (n / 2) + 1

/-- Bit length of a natural number. -/
def bitLen (n : ℕ) : ℕ := nbits 400 n

/-- Nearest integer to `n / d` (with `d > 0`), ties to even. -/
def divRound (n d : ℕ) : ℕ :=
  let q := n / d
  let r := n % d
  if 2 * r < d then q else if d < 2 * r then q + 1 else if q % 2 = 0 then q else q + 1

/-- Round a dyadic to the nearest binary64 value: keep at most 53 significand
bits, rounding to nearest with ties to even. -/
def dyRound (x : Dy) : Dy :=
  if x.m = 0 then ⟨0, 0⟩
  else
    let s := x.m.natAbs
    let b := bitLen s
    if b ≤ 53 then x
    else
      let k := b - 53
      let q := divRound s (2 ^ k)
      ⟨if x.m < 0 then -(q : ℤ) else (q : ℤ), x.e + k⟩

/-- Floor of the base-2 logarithm of `n / d` (both positive), by bounded
scaling. -/
def ratLog2 : ℕ → ℕ → ℕ → ℤ → ℤ
  | 0, _, _, acc => acc
  | fuel + 1, n, d, acc =>
    if n < d then ratLog2 fuel (2 * n) d (acc - 1)
    else if 2 * d ≤ n then ratLog2 fuel n (2 * d) (acc + 1)
    else acc

/-- The binary64 value nearest the positive fraction `n / d`: scale into
`[2^52, 2^53)` and round to nearest, ties to even. -/
def floatOfRatPos (n d : ℕ) : Dy :=
  let e := ratLog2 400 n d 0 - 52
  ⟨(divRound (n * 2 ^ (-e).toNat) (d * 2 ^ e.toNat) : ℤ), e⟩

/-- The binary64 value nearest a nonnegative fraction `n / d` — the value a
positive Python decimal literal such as `0.866` denotes. -/
def floatOfRat (n d : ℕ) : Dy :=
  if n = 0 then ⟨0, 0⟩ else floatOfRatPos n d

/-- Conversion of a Python `int` to binary64 (exact below `2 ^ 53`). -/
def floatOfInt (a : ℤ) : Dy := dyRound ⟨a, 0⟩

/-- Binary64 multiplication: exact product, then rounding. -/
def fmul (x y : Dy) : Dy := dyRound ⟨x.m * y.m, x.e + y.e⟩

/-- Binary64 addition: exact aligned sum, then rounding. -/
def fadd (x y : Dy) : Dy :=
  if x.e ≤ y.e then dyRound ⟨x.m + y.m * 2 ^ (y.e - x.e).toNat, x.e⟩
  else dyRound ⟨x.m * 2 ^ (x.e - y.e).toNat + y.m, y.e⟩

/-- Binary64 subtraction (negation is exact). -/
def fsub (x y : Dy) : Dy := fadd x ⟨-y.m, y.e⟩

/-- Python `int(...)` on a binary64 value: truncation toward zero. -/
def dyTrunc (x : Dy) : ℤ :=
  if 0 ≤ x.e then x.m * 2 ^ x.e.toNat
  else if x.m < 0 then -((x.m.natAbs / 2 ^ (-x.e).toNat : ℕ) : ℤ)
  else ((x.m.natAbs / 2 ^ (-x.e).toNat : ℕ) : ℤ)

/-- Line 98 (also 108 and 110): `int(input_pixel_size * 0.866)` under exact
binary64 semantics — the integer is converted to a double, multiplied by the
double nearest `0.866`, and the product is truncated toward zero. -/
def cellHeight (k : ℕ) : ℕ :=
  (dyTrunc (fmul (floatOfInt (k : ℤ)) (floatOfRat 866 1000))).toNat

/-- One channel of lines 55-58 under exact binary64 semantics: the
coefficient is a double `c`, `dom = avg` (line 52), and every operation of
`avg * (1 - c) + dom * c` rounds to nearest, ties to even, before `int(...)`
truncates toward zero. -/
def mixChannelF (c : Dy) (a : ℤ) : ℤ :=
  dyTrunc (fadd (fmul (floatOfInt a) (fsub (floatOfInt 1) c)) (fmul (floatOfInt a) c))

/-- A decoded RGB image: dimensions and a pixel lookup, `pix x y` being the
pixel in column `x` of row `y`. -/
structure Img where
  width : ℕ
  height : ℕ
  pix : ℕ → ℕ → Color

/-- The image whose pixels all have the same color. -/
def constImg (w h : ℕ) (c : Color) : Img := ⟨w, h, fun _ _ => c⟩

/-- Row-major pixel list of `image.crop((l, u, r, lo))` followed by
`list(region.getdata())`; every box built by `sample_colors` lies inside the
image. -/
def cropPixels (img : Img) (l u r lo : ℕ) : List Color :=
  (List.range (lo - u)).flatMap fun dy =>
    (List.range (r - l)).map fun dx => img.pix (l + dx) (u + dy)

/-- The exceptions the embedded fragment of the script can raise:
`ZeroDivisionError` from `//` with a zero divisor, `IndexError` from
`pixels[0]` on an empty sequence. -/
inductive PyErr where
  | zeroDivision
  | indexError
deriving DecidableEq

instance {ε α : Type} [DecidableEq ε] [DecidableEq α] : DecidableEq (Except ε α) :=
  fun a b =>
    match a, b with
    | .error e, .error f => decidable_of_iff (e = f) (by simp)
    | .ok x, .ok y => decidable_of_iff (x = y) (by simp)
    | .error _, .ok _ => .isFalse fun hcon => Except.noConfusion hcon
    | .ok _, .error _ => .isFalse fun hcon => Except.noConfusion hcon

/-- Lines 80-119, `sample_colors`: grid geometry and the per-cell calls to
`get_average_color`, with the `ZeroDivisionError` of `width //
input_pixel_size` (line 97) and of `height // int(input_pixel_size * 0.866)`
(line 98) made explicit. -/
def sample_colors (img : Img) (pir : ℕ) (dc : ℚ) (t : ℕ) :
    Except PyErr (List (List Color)) :=
  if pir = 0 then .error .zeroDivision
  else
    let ips := img.width / pir
    if ips = 0 then .error .zeroDivision
    else
      let ch := cellHeight ips
      if ch = 0 then .error .zeroDivision
      else
        let spr := img.width / ips
        let nr := img.height / ch
        match (List.range nr).mapM
            (fun i => (List.range spr).mapM
              (fun j =>
                get_average_color
                  (cropPixels img (j * ips) (i * ch) (j * ips + ips) (i * ch + ch)) dc t)) with
        | some rows => .ok rows
        | none => .error .indexError

/-- Lines 132-135: the set of distinct colors of the grid, as the
duplicate-free list of first occurrences. -/
def uniqueColors (colors : List (List Color)) : List Color := colors.flatten.dedup

/-- Abstraction of the external `sklearn.cluster.KMeans(n_clusters = k,
random_state = 42)` fit of lines 145-146 on the distinct colors: `centers i`
is `cluster_centers_[i]` (a triple of reals, modelled exactly as rationals)
and `assign c` is `predict([c])[0]`.  The clustering algorithm itself is a
third-party dependency, so the theorems below hold for every such model. -/
structure KMeansModel (k : ℕ) where
  centers : Fin k → ℚ × ℚ × ℚ
  assign : Color → Fin k

/-- `.astype(int)` on a centroid (line 149): truncation toward zero of each
channel. -/
def centerColor (q : ℚ × ℚ × ℚ) : Color := (pytrunc q.1, pytrunc q.2.1, pytrunc q.2.2)

/-- Line 149: the replacement `color_map` assigns to one color. -/
def colorMap {k : ℕ} (km : KMeansModel k) (c : Color) : Color :=
  centerColor (km.centers (km.assign c))

/-- Lines 121-158, `reduce_colors`: return the grid unchanged when the
distinct-color count is at most `num_colors`, else rewrite every cell through
the centroid map of the clustering. -/
def reduce_colors {k : ℕ} (km : KMeansModel k) (colors : List (List Color)) :
    List (List Color) :=
  if (uniqueColors colors).length ≤ k then colors
  else colors.map (fun row => row.map (colorMap km))

/-- Spec-side grouping state for claim C1: each group carries its anchor (the
first-inserted member) explicitly, and a pixel joins the first group, in
creation order, whose anchor is within the threshold on all three channels;
otherwise it opens a new group anchored at itself. -/
def specAddPixel (t : ℕ) (p : Color) :
    List (Color × List Color) → List (Color × List Color)
  | [] => [(p, [p])]
  | (a, ms) :: gs =>
    if closeTo t p a then (a, ms ++ [p]) :: gs else (a, ms) :: specAddPixel t p gs

/-- Spec-side single-pass clustering with explicit fixed anchors. -/
def specGroups (t : ℕ) (ps : List Color) : List (Color × List Color) :=
  ps.foldl (fun gs p => specAddPixel t p gs) []

/-- Claim C2's selection rule: `g` occurs in the group list, no group is
strictly larger, and every group formed before `g` is strictly smaller. -/
def FirstLargest (gs : List (List Color)) (g : List Color) : Prop :=
  ∃ l₁ l₂, gs = l₁ ++ g :: l₂ ∧ (∀ h ∈ gs, h.length ≤ g.length) ∧
    ∀ h ∈ l₁, h.length < g.length

/-- Spec-side per-channel integer mean of a group. -/
def specMean (g : List Color) : Color :=
  ((g.map (fun p : Color => p.1)).sum.fdiv g.length,
   (g.map (fun p : Color => p.2.1)).sum.fdiv g.length,
   (g.map (fun p : Color => p.2.2)).sum.fdiv g.length)

/-- Spec-side cell height of claim C8: `round(cell_width * 0.866)`. -/
def specCellHeight (w : ℕ) : ℤ := round ((w : ℚ) * (866 / 1000))

/-- A degenerate clustering model, used to instantiate universally quantified
statements at concrete inputs. -/
def km0 (k : ℕ) [NeZero k] : KMeansModel k := ⟨fun _ => (0, 0, 0), fun _ => 0⟩

/-- Concrete background pixel used to instantiate region statements. -/
def bg0 : Color := (0, 0, 0)

/-- Concrete non-background pixels used to instantiate region statements:
two colors within threshold 10 of each other and one far away. -/
def rest0 : List Color := [(5, 5, 5), (100, 100, 100), (6, 6, 6)]

/-- The background filter applied to the concrete region. -/
def filtered0 : List Color := (bg0 :: rest0).filter (fun p => decide (p ≠ bg0))

/-- A concrete red pixel. -/
def red0 : Color := (255, 0, 0)

/-- A concrete pixel used in the geometry witness. -/
def pix123 : Color := (1, 2, 3)

/-- The grid a 20×20 constant image sampled with `pixel_in_row = 4`
produces. -/
def grid20 : List (List Color) := List.replicate 5 (List.replicate 4 pix123)

/-! ### General lemmas about the embedded functions -/

/-- Sanity anchor for the binary64 model: the double nearest `0.866` is
`7800234554605699 * 2 ^ (-53)`, the value Python reports through
`(0.866).as_integer_ratio()`. -/
theorem floatOfRat_866 : floatOfRat 866 1000 = ⟨7800234554605699, -53⟩ := by decide

/-- Sanity anchors for `cellHeight`, matching CPython: `int(10*0.866) = 8`,
`int(500*0.866) = 433`, `int(1*0.866) = 0`. -/
theorem cellHeight_anchors :
    cellHeight 10 = 8 ∧ cellHeight 500 = 433 ∧ cellHeight 1 = 0 := by
  decide

/-- Unfolding equation of `get_average_color` on a nonempty pixel list. -/
theorem get_average_color_cons (bg : Color) (rest : List Color) (dc : ℚ) (t : ℕ) :
    get_average_color (bg :: rest) dc t =
      if (bg :: rest).filter (fun p => decide (p ≠ bg)) = [] then some bg
      else
        match pickLargest (buildGroups t ((bg :: rest).filter (fun p => decide (p ≠ bg)))) with
        | none => none
        | some lg => some (mixColor dc (avgColor lg)) := rfl

/-- On a region whose pixels all equal the first one, the background filter
of line 19 removes every pixel. -/
theorem filter_ne_head_eq_nil (bg : Color) (rest : List Color)
    (hconst : ∀ p ∈ rest, p = bg) :
    (bg :: rest).filter (fun p => decide (p ≠ bg)) = [] := by
  rw [List.filter_eq_nil_iff]
  intro a ha
  rcases List.mem_cons.mp ha with h | h
  · simp [h]
  · simp [hconst a h]

/-- On a region whose pixels all equal the first one, `get_average_color`
returns that pixel through the early return of line 22. -/
theorem get_average_color_of_all_eq (bg : Color) (rest : List Color) (dc : ℚ) (t : ℕ)
    (hconst : ∀ p ∈ rest, p = bg) :
    get_average_color (bg :: rest) dc t = some bg := by
  rw [get_average_color_cons, filter_ne_head_eq_nil bg rest hconst]
  simp

/-! ### Claim C4 -/

/-- Claim C4: for every region in which every pixel is exactly equal to the
region's top-left pixel, `get_average_color` (and hence the sampled cell
value) returns exactly that top-left color, unchanged. -/
theorem region_constant_returns_background (bg : Color) (rest : List Color)
    (dc : ℚ) (t : ℕ) (hconst : ∀ p ∈ rest, p = bg) :
    get_average_color (bg :: rest) dc t = some bg :=
  get_average_color_of_all_eq bg rest dc t hconst

/-- Witness for claim C4 at a concrete constant region. -/
theorem region_constant_returns_background_witness :
    (∀ p ∈ [((7 : ℤ), (8 : ℤ), (9 : ℤ)), (7, 8, 9)], p = ((7 : ℤ), (8 : ℤ), (9 : ℤ))) ∧
      get_average_color [((7 : ℤ), (8 : ℤ), (9 : ℤ)), (7, 8, 9), (7, 8, 9)] (1 / 2) 10 =
        some ((7 : ℤ), (8 : ℤ), (9 : ℤ)) :=
  ⟨by decide, region_constant_returns_background _ _ _ _ (by decide)⟩

/-! ### Claim C1 -/

/-- One grouping step agrees with the anchored spec step, and every group's
first member is its anchor. -/
theorem addPixel_spec (t : ℕ) (p : Color) (sgs : List (Color × List Color))
    (hanch : ∀ x ∈ sgs, x.2.head? = some x.1) :
    addPixel t p (sgs.map Prod.snd) = (specAddPixel t p sgs).map Prod.snd ∧
      ∀ x ∈ specAddPixel t p sgs, x.2.head? = some x.1 := by
  induction sgs with
  | nil =>
    refine ⟨rfl, ?_⟩
    intro x hx
    rw [specAddPixel, List.mem_singleton] at hx
    subst hx
    rfl
  | cons g gs ih =>
    obtain ⟨a, ms⟩ := g
    have hhead : ms.head? = some a := hanch (a, ms) (List.mem_cons_self _ _)
    obtain ⟨ms', rfl⟩ : ∃ ms', ms = a :: ms' := by
      cases ms with
      | nil => exact absurd hhead (by simp)
      | cons b bs =>
        refine ⟨bs, ?_⟩
        have hb : b = a := by simpa using hhead
        rw [hb]
    by_cases hc : closeTo t p a
    · refine ⟨by simp [specAddPixel, addPixel, matchesGroup, hc], ?_⟩
      intro x hx
      rw [specAddPixel, if_pos hc] at hx
      rcases List.mem_cons.mp hx with rfl | hx
      · rfl
      · exact hanch x (List.mem_cons_of_mem _ hx)
    · have ihs := ih fun x hx => hanch x (List.mem_cons_of_mem _ hx)
      refine ⟨?_, ?_⟩
      · simp [specAddPixel, addPixel, matchesGroup, hc, ihs.1]
      · intro x hx
        rw [specAddPixel, if_neg hc] at hx
        rcases List.mem_cons.mp hx with rfl | hx
        · exact hanch _ (List.mem_cons_self _ _)
        · exact ihs.2 x hx

/-- The fold of grouping steps agrees with the anchored spec fold. -/
theorem foldGroups_spec (t : ℕ) (ps : List Color) :
    ∀ sgs : List (Color × List Color), (∀ x ∈ sgs, x.2.head? = some x.1) →
      List.foldl (fun gs p => addPixel t p gs) (sgs.map Prod.snd) ps =
          (List.foldl (fun gs p => specAddPixel t p gs) sgs ps).map Prod.snd ∧
        ∀ x ∈ List.foldl (fun gs p => specAddPixel t p gs) sgs ps,
          x.2.head? = some x.1 := by
  induction ps with
  | nil => exact fun sgs h => ⟨rfl, h⟩
  | cons p ps ih =>
    intro sgs h
    have h1 := addPixel_spec t p sgs h
    have h2 := ih (specAddPixel t p sgs) h1.2
    simp only [List.foldl_cons]
    rw [h1.1]
    exact h2

/-- One grouping step only adds the new pixel: the grouped pixels are a
permutation of the pixel followed by the previously grouped ones. -/
theorem addPixel_flatten_perm (t : ℕ) (p : Color) (gs : List (List Color)) :
    (addPixel t p gs).flatten.Perm (p :: gs.flatten) := by
  induction gs with
  | nil => simp [addPixel]
  | cons g gs ih =>
    rw [addPixel]
    by_cases hc : matchesGroup t p g
    · rw [if_pos hc]
      have h1 : ((g ++ [p]) :: gs).flatten = g ++ (p :: gs.flatten) := by simp
      rw [h1, List.flatten_cons]
      exact List.perm_middle
    · rw [if_neg hc]
      simp only [List.flatten_cons]
      refine (List.Perm.append_left g ih).trans ?_
      exact List.perm_middle

/-- The grouping fold partitions exactly the pixels it was fed. -/
theorem foldGroups_flatten_perm (t : ℕ) (ps : List Color) :
    ∀ gs : List (List Color),
      (List.foldl (fun acc p => addPixel t p acc) gs ps).flatten.Perm
        (gs.flatten ++ ps) := by
  induction ps with
  | nil => intro gs; simp
  | cons p ps ih =>
    intro gs
    simp only [List.foldl_cons]
    refine (ih (addPixel t p gs)).trans ?_
    refine (List.Perm.append_right ps (addPixel_flatten_perm t p gs)).trans ?_
    exact List.perm_middle.symm

/-- Claim C1: on every region whose top-left pixel is not shared by all
pixels, the non-background pixels are partitioned by the greedy single-pass
clustering in region-scan order: the produced groups are exactly the member
lists of the anchored spec clustering (each pixel tested against each
existing group's first-inserted member in creation order, joining the first
match, opening a new group otherwise), each group's first-inserted member is
its anchor and is never recomputed, and the groups partition the filtered
pixels. -/
theorem grouping_first_match_fixed_anchor (bg : Color) (rest : List Color) (t : ℕ)
    (_hne : (bg :: rest).filter (fun p => decide (p ≠ bg)) ≠ []) :
    buildGroups t ((bg :: rest).filter (fun p => decide (p ≠ bg))) =
        (specGroups t ((bg :: rest).filter (fun p => decide (p ≠ bg)))).map Prod.snd ∧
      (∀ g ∈ specGroups t ((bg :: rest).filter (fun p => decide (p ≠ bg))),
        g.2.head? = some g.1) ∧
      (buildGroups t ((bg :: rest).filter (fun p => decide (p ≠ bg)))).flatten.Perm
        ((bg :: rest).filter (fun p => decide (p ≠ bg))) := by
  have h := foldGroups_spec t ((bg :: rest).filter (fun p => decide (p ≠ bg))) []
    (by intro x hx; exact absurd hx (List.not_mem_nil x))
  refine ⟨h.1, h.2, ?_⟩
  have hp := foldGroups_flatten_perm t ((bg :: rest).filter (fun p => decide (p ≠ bg))) []
  simpa [buildGroups] using hp

/-- Witness for claim C1 at a concrete region: background `(0,0,0)`, two
near-`(5,5,5)` pixels and one `(100,100,100)` pixel, threshold 10. -/
theorem grouping_first_match_fixed_anchor_witness :
    (bg0 :: rest0).filter (fun p => decide (p ≠ bg0)) ≠ [] ∧
      (buildGroups 10 ((bg0 :: rest0).filter (fun p => decide (p ≠ bg0))) =
          (specGroups 10 ((bg0 :: rest0).filter (fun p => decide (p ≠ bg0)))).map Prod.snd ∧
        (∀ g ∈ specGroups 10 ((bg0 :: rest0).filter (fun p => decide (p ≠ bg0))),
          g.2.head? = some g.1) ∧
        (buildGroups 10 ((bg0 :: rest0).filter (fun p => decide (p ≠ bg0)))).flatten.Perm
          ((bg0 :: rest0).filter (fun p => decide (p ≠ bg0)))) :=
  ⟨by decide, grouping_first_match_fixed_anchor bg0 rest0 10 (by decide)⟩

/-! ### Claim C2 -/

/-- Python's `max(_, key=len)` keeps the first maximum: the fold result
occurs in the list, no element is strictly longer, and every element before
it is strictly shorter. -/
theorem foldBest_firstLargest (g : List Color) (gs : List (List Color)) :
    FirstLargest (g :: gs)
      (gs.foldl (fun best h => if best.length < h.length then h else best) g) := by
  induction gs generalizing g with
  | nil => exact ⟨[], [], rfl, by simp, by simp⟩
  | cons h hs ih =>
    simp only [List.foldl_cons]
    by_cases hgl : g.length < h.length
    · rw [if_pos hgl]
      obtain ⟨l₁, l₂, hdec, hle, hlt⟩ := ih h
      refine ⟨g :: l₁, l₂, by rw [List.cons_append, ← hdec], ?_, ?_⟩
      · intro x hx
        rcases List.mem_cons.mp hx with rfl | hx
        · exact le_trans (le_of_lt hgl) (hle h (List.mem_cons_self _ _))
        · exact hle x hx
      · intro x hx
        rcases List.mem_cons.mp hx with rfl | hx
        · exact lt_of_lt_of_le hgl (hle h (List.mem_cons_self _ _))
        · exact hlt x hx
    · rw [if_neg hgl]
      obtain ⟨l₁, l₂, hdec, hle, hlt⟩ := ih g
      cases l₁ with
      | nil =>
        simp only [List.nil_append] at hdec
        injection hdec with h1 h2
        refine ⟨[], h :: hs, by rw [List.nil_append, ← h1], ?_, by simp⟩
        intro x hx
        rcases List.mem_cons.mp hx with rfl | hx
        · rw [← h1]
        · rcases List.mem_cons.mp hx with rfl | hx
          · rw [← h1]; exact Nat.le_of_not_lt hgl
          · exact hle x (List.mem_cons_of_mem _ (h2 ▸ hx))
      | cons a l₁' =>
        rw [List.cons_append] at hdec
        injection hdec with h1 h2
        have hg : g.length <
            (hs.foldl (fun best h => if best.length < h.length then h else best) g).length :=
          hlt g (h1 ▸ List.mem_cons_self a l₁')
        refine ⟨g :: h :: l₁', l₂, ?_, ?_, ?_⟩
        · rw [List.cons_append, List.cons_append, ← h2]
        · intro x hx
          rcases List.mem_cons.mp hx with rfl | hx
          · exact hle x (List.mem_cons_self _ _)
          · rcases List.mem_cons.mp hx with rfl | hx
            · exact le_of_lt (lt_of_le_of_lt (Nat.le_of_not_lt hgl) hg)
            · exact hle x (List.mem_cons_of_mem _ hx)
        · intro x hx
          rcases List.mem_cons.mp hx with rfl | hx
          · exact hg
          · rcases List.mem_cons.mp hx with rfl | hx
            · exact lt_of_le_of_lt (Nat.le_of_not_lt hgl) hg
            · exact hlt x (List.mem_cons_of_mem a hx)

/-- The channel-sum fold equals the spec-side channel sums. -/
theorem sumColors_eq (g : List Color) :
    sumColors g = ((g.map (fun p : Color => p.1)).sum,
      (g.map (fun p : Color => p.2.1)).sum, (g.map (fun p : Color => p.2.2)).sum) := by
  have key : ∀ (l : List Color) (a b c : ℤ),
      l.foldl (fun acc p => (acc.1 + p.1, acc.2.1 + p.2.1, acc.2.2 + p.2.2)) (a, b, c) =
        (a + (l.map (fun p : Color => p.1)).sum,
         b + (l.map (fun p : Color => p.2.1)).sum,
         c + (l.map (fun p : Color => p.2.2)).sum) := by
    intro l
    induction l with
    | nil => intro a b c; simp
    | cons p l ih =>
      intro a b c
      simp only [List.foldl_cons, List.map_cons, List.sum_cons]
      rw [ih]
      simp [add_assoc]
  simpa using key g 0 0 0

/-- `avg_color` is the spec-side per-channel floor mean. -/
theorem avgColor_eq_specMean (g : List Color) : avgColor g = specMean g := by
  rw [avgColor, specMean, sumColors_eq]

/-- A grouping step never yields an empty group list. -/
theorem addPixel_ne_nil (t : ℕ) (p : Color) (gs : List (List Color)) :
    addPixel t p gs ≠ [] := by
  cases gs with
  | nil => simp [addPixel]
  | cons g gs =>
    rw [addPixel]
    by_cases hc : matchesGroup t p g
    · rw [if_pos hc]; exact List.cons_ne_nil _ _
    · rw [if_neg hc]; exact List.cons_ne_nil _ _

/-- The grouping fold preserves nonemptiness of the group list. -/
theorem foldGroups_ne_nil (t : ℕ) (ps : List Color) :
    ∀ gs : List (List Color), gs ≠ [] →
      List.foldl (fun acc p => addPixel t p acc) gs ps ≠ [] := by
  induction ps with
  | nil => exact fun gs h => h
  | cons p ps ih => exact fun gs _ => ih (addPixel t p gs) (addPixel_ne_nil t p gs)

/-- Grouping a nonempty pixel list yields a nonempty group list. -/
theorem buildGroups_ne_nil (t : ℕ) (ps : List Color) (h : ps ≠ []) :
    buildGroups t ps ≠ [] := by
  cases ps with
  | nil => exact absurd rfl h
  | cons p ps =>
    rw [buildGroups, List.foldl_cons]
    exact foldGroups_ne_nil t ps _ (addPixel_ne_nil t p [])

/-- On a nonempty group list, line 38 selects exactly the first largest
group. -/
theorem pickLargest_firstLargest (gs : List (List Color)) (h : gs ≠ []) :
    ∃ lg, pickLargest gs = some lg ∧ FirstLargest gs lg := by
  cases gs with
  | nil => exact absurd rfl h
  | cons g gs => exact ⟨_, rfl, foldBest_firstLargest g gs⟩

/-- Claim C2: on every region with at least one pixel differing from the
top-left background pixel, `get_average_color` selects the group with the
largest pixel count, ties broken in favour of the group formed first, and
computes `avg_color` as the per-channel integer mean (floor division by the
group size) of that group; the returned value is the blend applied to that
mean. -/
theorem largest_group_floor_mean (bg : Color) (rest : List Color) (dc : ℚ) (t : ℕ)
    (hne : (bg :: rest).filter (fun p => decide (p ≠ bg)) ≠ []) :
    ∃ lg,
      pickLargest (buildGroups t ((bg :: rest).filter (fun p => decide (p ≠ bg)))) =
          some lg ∧
        FirstLargest (buildGroups t ((bg :: rest).filter (fun p => decide (p ≠ bg)))) lg ∧
        avgColor lg = specMean lg ∧
        get_average_color (bg :: rest) dc t = some (mixColor dc (specMean lg)) := by
  obtain ⟨lg, hpick, hfl⟩ := pickLargest_firstLargest _ (buildGroups_ne_nil t _ hne)
  refine ⟨lg, hpick, hfl, avgColor_eq_specMean lg, ?_⟩
  rw [get_average_color_cons, if_neg hne, hpick]
  show some (mixColor dc (avgColor lg)) = some (mixColor dc (specMean lg))
  rw [avgColor_eq_specMean]

/-- Witness for claim C2 at the concrete region behind `bg0` and `rest0`. -/
theorem largest_group_floor_mean_witness :
    (bg0 :: rest0).filter (fun p => decide (p ≠ bg0)) ≠ [] ∧
      (∃ lg,
        pickLargest (buildGroups 10 ((bg0 :: rest0).filter (fun p => decide (p ≠ bg0)))) =
            some lg ∧
          FirstLargest (buildGroups 10 ((bg0 :: rest0).filter (fun p => decide (p ≠ bg0)))) lg ∧
          avgColor lg = specMean lg ∧
          get_average_color (bg0 :: rest0) 0 10 = some (mixColor 0 (specMean lg))) :=
  ⟨by decide, largest_group_floor_mean bg0 rest0 0 10 (by decide)⟩

/-! ### Claim C3 -/

/-- Truncation toward zero of an integer embedded in the rationals is that
integer. -/
theorem pytrunc_intCast (a : ℤ) : pytrunc (a : ℚ) = a := by
  rw [pytrunc]
  split
  · rw [show (-(a : ℚ)) = ((-a : ℤ) : ℚ) by push_cast; ring]
    rw [Rat.num_intCast, Rat.den_intCast]
    simp
  · rw [Rat.num_intCast, Rat.den_intCast]
    simp

/-- Under exact coefficient arithmetic, one blended channel is the average
channel unchanged. -/
theorem mixChannel_id (dc : ℚ) (a : ℤ) : mixChannel dc a = a := by
  rw [mixChannel]
  rw [show (a : ℚ) * (1 - dc) + (a : ℚ) * dc = (a : ℚ) by ring]
  exact pytrunc_intCast a

/-- Claim C3 (amended): under exact rational arithmetic on the coefficient,
the final blend step of `get_average_color` is an identity: `avg * (1 -
dominant_coefficient) + avg * dominant_coefficient`, truncated to integer,
returns `avg_color` unchanged for every coefficient.  (Under the binary64
arithmetic the source actually runs this fails for some coefficients; see
the counterexample below.) -/
theorem blend_exact_identity (dc : ℚ) (avg : Color) : mixColor dc avg = avg := by
  rw [mixColor, mixChannel_id, mixChannel_id, mixChannel_id]

/-- Counterexample to claim C3 as stated: under the binary64 arithmetic the
source executes, the blend with `dominant_coefficient = 0.002` applied to
the average channel value 3 truncates to 2, not 3 (CPython agrees:
`int(3*(1-0.002)+3*0.002) == 2`). -/
theorem blend_binary64_not_identity :
    mixChannelF (floatOfRat 2 1000) 3 = 2 ∧ mixChannelF (floatOfRat 2 1000) 3 ≠ 3 := by
  decide

/-! ### Claims C5 and C6 -/

/-- The identity branch of lines 137-139: with at most `k` distinct colors,
the input grid is returned as is. -/
theorem reduce_colors_of_card_le {k : ℕ} (km : KMeansModel k)
    (colors : List (List Color)) (h : colors.flatten.toFinset.card ≤ k) :
    reduce_colors km colors = colors := by
  have h' : (uniqueColors colors).length ≤ k := by
    rw [uniqueColors, ← List.card_toFinset]
    exact h
  rw [reduce_colors, if_pos h']

/-- Claim C5: whenever the number of distinct colors in the grid is at most
`num_colors`, `reduce_colors` returns the grid unchanged — same dimensions
and the same color value in every cell — for every clustering model. -/
theorem reduce_identity_when_few (k : ℕ) (km : KMeansModel k)
    (colors : List (List Color)) (h : colors.flatten.toFinset.card ≤ k) :
    reduce_colors km colors = colors :=
  reduce_colors_of_card_le km colors h

/-- Witness for claim C5: a grid with 3 distinct colors and `num_colors = 5`
is returned unchanged. -/
theorem reduce_identity_when_few_witness :
    ([[((0 : ℤ), 0, 0), (1, 1, 1)], [(2, 2, 2), (0, 0, 0)]] :
        List (List Color)).flatten.toFinset.card ≤ 5 ∧
      reduce_colors (km0 5) [[((0 : ℤ), 0, 0), (1, 1, 1)], [(2, 2, 2), (0, 0, 0)]] =
        [[((0 : ℤ), 0, 0), (1, 1, 1)], [(2, 2, 2), (0, 0, 0)]] :=
  ⟨by decide, reduce_identity_when_few 5 (km0 5) _ (by decide)⟩

/-- Claim C6: for every positive `num_colors = k` and every clustering model,
the reduced grid has the same dimensions (row count and per-row lengths) as
the input, contains at most `k` distinct colors, and — whenever clustering
actually runs, i.e. the input has more than `k` distinct colors — every cell
is the integer-truncated centroid of the cluster its original color was
assigned to. -/
theorem reduce_shape_and_palette (k : ℕ) (_hk : 0 < k) (km : KMeansModel k)
    (colors : List (List Color)) :
    (reduce_colors km colors).map List.length = colors.map List.length ∧
      (reduce_colors km colors).flatten.toFinset.card ≤ k ∧
      (k < colors.flatten.toFinset.card →
        reduce_colors km colors = colors.map (fun row => row.map (colorMap km))) := by
  by_cases h : (uniqueColors colors).length ≤ k
  · have hid : reduce_colors km colors = colors := by rw [reduce_colors, if_pos h]
    refine ⟨by rw [hid], ?_, ?_⟩
    · rw [hid, List.card_toFinset]
      simpa [uniqueColors] using h
    · intro hlt
      rw [List.card_toFinset] at hlt
      simp only [uniqueColors] at h
      omega
  · have helse : reduce_colors km colors =
        colors.map (fun row => row.map (colorMap km)) := by
      rw [reduce_colors, if_neg h]
    refine ⟨?_, ?_, fun _ => helse⟩
    · rw [helse]
      simp [List.map_map, Function.comp]
    · rw [helse]
      have hsub : (colors.map (fun row => row.map (colorMap km))).flatten.toFinset ⊆
          Finset.image (fun i => centerColor (km.centers i)) Finset.univ := by
        intro x hx
        rw [List.mem_toFinset, List.mem_flatten] at hx
        obtain ⟨l, hl, hxl⟩ := hx
        obtain ⟨row, _, rfl⟩ := List.mem_map.mp hl
        obtain ⟨c, _, rfl⟩ := List.mem_map.mp hxl
        exact Finset.mem_image.mpr ⟨km.assign c, Finset.mem_univ _, rfl⟩
      refine le_trans (Finset.card_le_card hsub) (le_trans Finset.card_image_le ?_)
      simp

/-- Witness for claim C6: one row of two distinct colors reduced with
`num_colors = 1`. -/
theorem reduce_shape_and_palette_witness :
    0 < 1 ∧
      ((reduce_colors (km0 1) [[((1 : ℤ), 2, 3), (4, 5, 6)]]).map List.length =
          ([[((1 : ℤ), 2, 3), (4, 5, 6)]] : List (List Color)).map List.length ∧
        (reduce_colors (km0 1) [[((1 : ℤ), 2, 3), (4, 5, 6)]]).flatten.toFinset.card ≤ 1 ∧
        (1 < ([[((1 : ℤ), 2, 3), (4, 5, 6)]] : List (List Color)).flatten.toFinset.card →
          reduce_colors (km0 1) [[((1 : ℤ), 2, 3), (4, 5, 6)]] =
            ([[((1 : ℤ), 2, 3), (4, 5, 6)]] : List (List Color)).map
              (fun row => row.map (colorMap (km0 1))))) :=
  ⟨by decide, reduce_shape_and_palette 1 (by decide) (km0 1) _⟩

/-! ### Sampling lemmas shared by claims C7, C8 and C9 -/

/-- A bind of constant replicates is a replicate. -/
theorem flatMap_const_replicate {α β : Type} (l : List α) (m : ℕ) (c : β) :
    (l.flatMap fun _ => List.replicate m c) = List.replicate (l.length * m) c := by
  induction l with
  | nil => simp
  | cons x l ih =>
    rw [List.flatMap_cons, ih, ← List.replicate_add]
    congr 1
    rw [List.length_cons]
    ring

/-- Cropping a constant image yields a constant pixel list of the region's
size. -/
theorem cropPixels_const (w h : ℕ) (c : Color) (l u r lo : ℕ) :
    cropPixels (constImg w h c) l u r lo = List.replicate ((lo - u) * (r - l)) c := by
  have h2 : ((List.range (lo - u)).flatMap fun _ =>
      (List.range (r - l)).map fun _ => c) = List.replicate ((lo - u) * (r - l)) c := by
    rw [show ((List.range (r - l)).map fun _ => c) = List.replicate (r - l) c by
      rw [List.map_const', List.length_range]]
    rw [flatMap_const_replicate, List.length_range]
  exact h2

/-- `get_average_color` on a nonempty constant pixel list returns the
constant. -/
theorem get_average_color_replicate (n : ℕ) (c : Color) (dc : ℚ) (t : ℕ) (h : n ≠ 0) :
    get_average_color (List.replicate n c) dc t = some c := by
  obtain ⟨m, rfl⟩ := Nat.exists_eq_succ_of_ne_zero h
  rw [List.replicate_succ]
  exact get_average_color_of_all_eq c _ dc t fun p hp => List.eq_of_mem_replicate hp

/-- Flattening a replicated replicate gives one long replicate. -/
theorem flatten_replicate_replicate {α : Type} (n m : ℕ) (c : α) :
    (List.replicate n (List.replicate m c)).flatten = List.replicate (n * m) c := by
  induction n with
  | zero => simp
  | succ n ih =>
    rw [List.replicate_succ, List.flatten_cons, ih, ← List.replicate_add]
    congr 1
    ring

/-- An `Option`-valued `mapM` whose function is constantly `some b` returns
the replicate of `b`. -/
theorem mapM_eq_some_replicate {α β : Type} (f : α → Option β) (b : β) :
    ∀ l : List α, (∀ x ∈ l, f x = some b) →
      l.mapM f = some (List.replicate l.length b) := by
  intro l
  induction l with
  | nil => intro _; rfl
  | cons x l ih =>
    intro h
    rw [List.mapM_cons, h x (List.mem_cons_self _ _),
      ih fun y hy => h y (List.mem_cons_of_mem _ hy)]
    rfl

/-- A successful `Option`-valued `mapM` preserves length. -/
theorem mapM_some_length {α β : Type} (f : α → Option β) :
    ∀ (l : List α) (l' : List β), l.mapM f = some l' → l'.length = l.length := by
  intro l
  induction l with
  | nil =>
    intro l' h
    rw [List.mapM_nil] at h
    cases h
    rfl
  | cons x l ih =>
    intro l' h
    rw [List.mapM_cons] at h
    cases hfx : f x with
    | none => rw [hfx] at h; simp at h
    | some b =>
      rw [hfx] at h
      cases hml : l.mapM f with
      | none => rw [hml] at h; simp at h
      | some ys =>
        rw [hml] at h
        have h' : b :: ys = l' := by simpa using h
        rw [← h', List.length_cons, List.length_cons, ih ys hml]

/-- Every element of a successful `Option`-valued `mapM` is the image of a
member of the input list. -/
theorem mapM_some_mem {α β : Type} (f : α → Option β) :
    ∀ (l : List α) (l' : List β), l.mapM f = some l' →
      ∀ y ∈ l', ∃ x ∈ l, f x = some y := by
  intro l
  induction l with
  | nil =>
    intro l' h
    rw [List.mapM_nil] at h
    cases h
    intro y hy
    exact absurd hy (List.not_mem_nil y)
  | cons x l ih =>
    intro l' h
    rw [List.mapM_cons] at h
    cases hfx : f x with
    | none => rw [hfx] at h; simp at h
    | some b =>
      rw [hfx] at h
      cases hml : l.mapM f with
      | none => rw [hml] at h; simp at h
      | some ys =>
        rw [hml] at h
        have h' : b :: ys = l' := by simpa using h
        intro y hy
        rw [← h'] at hy
        rcases List.mem_cons.mp hy with rfl | hy
        · exact ⟨x, List.mem_cons_self _ _, hfx⟩
        · obtain ⟨z, hz, hfz⟩ := ih ys hml y hy
          exact ⟨z, List.mem_cons_of_mem _ hz, hfz⟩

/-- `sample_colors` on a constant image: when no division-by-zero guard
fires, every cell is the constant color and the grid has `height //
cell_height` rows of `width // cell_width` cells. -/
theorem sample_colors_constImg (w h : ℕ) (c : Color) (pir : ℕ) (dc : ℚ) (t : ℕ)
    (hp : pir ≠ 0) (hips : w / pir ≠ 0) (hch : cellHeight (w / pir) ≠ 0) :
    sample_colors (constImg w h c) pir dc t =
      .ok (List.replicate (h / cellHeight (w / pir))
        (List.replicate (w / (w / pir)) c)) := by
  have hcell : ∀ i j : ℕ,
      get_average_color
        (cropPixels (constImg w h c) (j * (w / pir)) (i * cellHeight (w / pir))
          (j * (w / pir) + w / pir)
          (i * cellHeight (w / pir) + cellHeight (w / pir))) dc t = some c := by
    intro i j
    rw [cropPixels_const, Nat.add_sub_cancel_left, Nat.add_sub_cancel_left]
    exact get_average_color_replicate _ c dc t (Nat.mul_ne_zero hch hips)
  have hinner : ∀ i : ℕ,
      (List.range (w / (w / pir))).mapM
        (fun j => get_average_color
          (cropPixels (constImg w h c) (j * (w / pir)) (i * cellHeight (w / pir))
            (j * (w / pir) + w / pir)
            (i * cellHeight (w / pir) + cellHeight (w / pir))) dc t) =
        some (List.replicate (w / (w / pir)) c) := by
    intro i
    have := mapM_eq_some_replicate
      (fun j => get_average_color
        (cropPixels (constImg w h c) (j * (w / pir)) (i * cellHeight (w / pir))
          (j * (w / pir) + w / pir)
          (i * cellHeight (w / pir) + cellHeight (w / pir))) dc t)
      c (List.range (w / (w / pir))) (fun j _ => hcell i j)
    rwa [List.length_range] at this
  have houter := mapM_eq_some_replicate
    (fun i => (List.range (w / (w / pir))).mapM
      (fun j => get_average_color
        (cropPixels (constImg w h c) (j * (w / pir)) (i * cellHeight (w / pir))
          (j * (w / pir) + w / pir)
          (i * cellHeight (w / pir) + cellHeight (w / pir))) dc t))
    (List.replicate (w / (w / pir)) c)
    (List.range (h / cellHeight (w / pir))) (fun i _ => hinner i)
  rw [List.length_range] at houter
  simp only [sample_colors]
  rw [if_neg hp]
  show (if w / pir = 0 then Except.error PyErr.zeroDivision else _) = _
  rw [if_neg hips]
  show (if cellHeight (w / pir) = 0 then Except.error PyErr.zeroDivision else _) = _
  rw [if_neg hch]
  show (match (List.range (h / cellHeight (w / pir))).mapM
      (fun i => (List.range (w / (w / pir))).mapM
        (fun j => get_average_color
          (cropPixels (constImg w h c) (j * (w / pir)) (i * cellHeight (w / pir))
            (j * (w / pir) + w / pir)
            (i * cellHeight (w / pir) + cellHeight (w / pir))) dc t)) with
    | some rows => Except.ok rows
    | none => Except.error PyErr.indexError) = _
  rw [houter]

/-! ### Claim C7 -/

/-- Counterexample to claim C7 as stated: a 100×100 constant image sampled
with `pixel_in_row = 10` yields 12 rows (the hex pitch `int(10*0.866) = 8`
gives `100 // 8 = 12`), not 10. -/
theorem sample_100_not_ten_rows :
    sample_colors (constImg 100 100 red0) 10 0 10 =
        .ok (List.replicate 12 (List.replicate 10 red0)) ∧
      (List.replicate 12 (List.replicate 10 red0)).length ≠ 10 := by
  constructor
  · have h := sample_colors_constImg 100 100 red0 10 0 10
      (by decide) (by decide) (by decide)
    rw [show (100 : ℕ) / 10 = 10 by norm_num] at h
    rw [cellHeight_anchors.1] at h
    rw [show (100 : ℕ) / 8 = 12 by norm_num] at h
    exact h
  · simp

/-- Claim C7 (amended): a 100×100 image of one constant color `C`, sampled
with `pixel_in_row = 10`, produces a grid of 12 rows (hex pitch
`int(10*0.866) = 8`, `100 // 8 = 12`) of 10 columns with every cell `C`, and
`reduce_colors` with `num_colors = 1` returns that grid unchanged, for every
clustering model. -/
theorem sample_100_const_and_reduce (c : Color) (dc : ℚ) (t : ℕ) (km : KMeansModel 1) :
    sample_colors (constImg 100 100 c) 10 dc t =
        .ok (List.replicate 12 (List.replicate 10 c)) ∧
      reduce_colors km (List.replicate 12 (List.replicate 10 c)) =
        List.replicate 12 (List.replicate 10 c) := by
  constructor
  · have h := sample_colors_constImg 100 100 c 10 dc t (by decide) (by decide) (by decide)
    rw [show (100 : ℕ) / 10 = 10 by norm_num] at h
    rw [cellHeight_anchors.1] at h
    rw [show (100 : ℕ) / 8 = 12 by norm_num] at h
    exact h
  · apply reduce_colors_of_card_le
    rw [flatten_replicate_replicate]
    rw [List.toFinset_replicate_of_ne_zero (by norm_num)]
    simp

/-! ### Claim C8 -/

/-- Counterexample to claim C8 as stated: the source truncates
`cell_width * 0.866` with `int(...)`, it does not round it; at cell width 10
truncation gives 8 while `round(8.66)` is 9. -/
theorem cellHeight_not_round : (cellHeight 10 : ℤ) ≠ specCellHeight 10 := by
  rw [cellHeight_anchors.1]
  rw [show specCellHeight 10 = 9 by rw [specCellHeight, round_eq]; norm_num]
  decide

/-- Claim C8 (amended): in the staggered-hex-like layout the cell width is
`image_width // pixel_in_row`, the cell height is the *truncation*
`int(cell_width * 0.866)` (not the rounding the claim states), and a
successfully sampled grid has `image_height // cell_height` rows, each of
`image_width // cell_width` cells. -/
theorem sample_geometry (img : Img) (pir : ℕ) (dc : ℚ) (t : ℕ)
    (rows : List (List Color)) (h : sample_colors img pir dc t = .ok rows) :
    rows.length = img.height / cellHeight (img.width / pir) ∧
      ∀ row ∈ rows, row.length = img.width / (img.width / pir) := by
  simp only [sample_colors] at h
  by_cases h1 : pir = 0
  · rw [if_pos h1] at h
    exact Except.noConfusion h
  rw [if_neg h1] at h
  by_cases h2 : img.width / pir = 0
  · rw [if_pos h2] at h
    exact Except.noConfusion h
  rw [if_neg h2] at h
  by_cases h3 : cellHeight (img.width / pir) = 0
  · rw [if_pos h3] at h
    exact Except.noConfusion h
  rw [if_neg h3] at h
  cases hm : (List.range (img.height / cellHeight (img.width / pir))).mapM
      (fun i => (List.range (img.width / (img.width / pir))).mapM
        (fun j => get_average_color
          (cropPixels img (j * (img.width / pir)) (i * cellHeight (img.width / pir))
            (j * (img.width / pir) + img.width / pir)
            (i * cellHeight (img.width / pir) + cellHeight (img.width / pir))) dc t)) with
  | none =>
    rw [hm] at h
    exact Except.noConfusion h
  | some rows' =>
    rw [hm] at h
    have hr : rows' = rows := by
      have := h
      injection this
    subst hr
    constructor
    · rw [mapM_some_length _ _ _ hm, List.length_range]
    · intro row hrow
      obtain ⟨i, _, hi⟩ := mapM_some_mem _ _ _ hm row hrow
      rw [mapM_some_length _ _ _ hi, List.length_range]

/-- Witness for claim C8 (amended) on a concrete 20×20 image with
`pixel_in_row = 4`: cell width 5, cell height `int(5*0.866) = 4`, 5 rows of
4 cells. -/
theorem sample_geometry_witness :
    sample_colors (constImg 20 20 pix123) 4 0 10 = .ok grid20 ∧
      (grid20.length = (constImg 20 20 pix123).height /
          cellHeight ((constImg 20 20 pix123).width / 4) ∧
        ∀ row ∈ grid20,
          row.length = (constImg 20 20 pix123).width /
            ((constImg 20 20 pix123).width / 4)) :=
  ⟨by decide, sample_geometry (constImg 20 20 pix123) 4 0 10 grid20 (by decide)⟩

/-! ### Claim C9 -/

/-- Claim C9 (amended): when `pixel_in_row` is at least the image width (and
the width is positive), `sample_colors` stops with a `ZeroDivisionError` — a
division fault, either from `width // 0` when the cell width is zero, or
from `height // 0` when the hex cell height `int(1 * 0.866)` truncates to
zero — rather than reporting any configuration error. -/
theorem sample_pir_ge_width_zeroDivision (img : Img) (pir : ℕ) (dc : ℚ) (t : ℕ)
    (hw : 0 < img.width) (hp : img.width ≤ pir) :
    sample_colors img pir dc t = .error PyErr.zeroDivision := by
  have hp0 : pir ≠ 0 := by omega
  simp only [sample_colors]
  rw [if_neg hp0]
  rcases eq_or_lt_of_le hp with heq | hlt
  · have h1 : img.width / pir = 1 := by
      rw [← heq]
      exact Nat.div_self hw
    rw [h1]
    rw [if_neg one_ne_zero]
    rw [show cellHeight 1 = 0 from cellHeight_anchors.2.2]
    rw [if_pos rfl]
  · have h0 : img.width / pir = 0 := Nat.div_eq_of_lt hlt
    rw [h0, if_pos rfl]

/-- Witness for claim C9 (amended) at a 4×4 image with `pixel_in_row = 7`. -/
theorem sample_pir_ge_width_zeroDivision_witness :
    0 < (constImg 4 4 bg0).width ∧ (constImg 4 4 bg0).width ≤ 7 ∧
      sample_colors (constImg 4 4 bg0) 7 0 10 = .error PyErr.zeroDivision :=
  ⟨by decide, by decide,
    sample_pir_ge_width_zeroDivision _ _ _ _ (by decide) (by decide)⟩

/-- Counterexample to claim C9 as stated: at image width 4 and
`pixel_in_row = 7` the code hits exactly a division fault
(`ZeroDivisionError`) — there is no `ConfigurationError` anywhere in the
source, only the broad `except Exception` handler of `pixelate_image`
printing a generic processing error. -/
theorem sample_division_fault :
    sample_colors (constImg 4 4 bg0) 7 0 10 = .error PyErr.zeroDivision := by
  decide

end Pixelart
